import Mathlib

/-!
Verification of the Risk-Dashboard ingestion/storage subsystem.

Shallow embedding of `data_storage.py` (the SQLite-backed store) and
`webhook_receiver.py` (the FastAPI ingestion endpoint).

Modelling conventions:
* A database row of table `investment_data` is `Row`; the table is a
  `List Row` in insertion order (ids assigned by AUTOINCREMENT are
  strictly increasing in that order).
* `price`/`atr` (Python floats) are modelled as rationals.
* `timestamp` (SQLite `CURRENT_TIMESTAMP`, second resolution, compared
  as text) is modelled as `Nat`; it is non-decreasing in insertion
  order but ties are possible.
* The SQL window `ROW_NUMBER() OVER (PARTITION BY symbol ORDER BY
  timestamp DESC)` orders each partition only by timestamp; there is no
  secondary sort key, so within a partition SQLite scans the rows of
  equal timestamp in storage order (via the `(symbol, timestamp DESC)`
  index, rowid ascending).  The `rn = 1` row of a partition is thus the
  first row in storage order having the maximal timestamp; `pick1`
  below computes exactly that (it replaces the current best only on a
  strictly larger timestamp).
* The final `ORDER BY timestamp DESC` is modelled as a stable insertion
  sort by the decidable total preorder `tsGe`.
* Fallibility of the persistence medium is modelled by an explicit
  `dbOk : Bool` flag (for writes) and an `Except` value (for the read
  path wrapped in `try/except`).
-/

namespace RiskDashboard

/-- A row of the `investment_data` table: columns `id` (AUTOINCREMENT
primary key), `symbol`, `price`, `atr`, `timestamp`.  Note the table has
no `exit_price` column: `exit_price` is never persisted. -/
structure Row where
  id : Nat
  symbol : String
  price : ℚ
  atr : ℚ
  timestamp : Nat
  deriving Repr, DecidableEq

/-- One step of the window scan: keep the current best row unless the
next row has a strictly larger timestamp (ties keep the earlier row, as
the window's ORDER BY has no tie-break key beyond storage order). -/
def step (b x : Row) : Row :=
  if b.timestamp < x.timestamp then x else b

/-- The `rn = 1` row of a nonempty partition scanned in storage order. -/
def pick1 (b : Row) (l : List Row) : Row :=
  l.foldl step b

/-- The `rn = 1` row of a partition, `none` for the empty partition. -/
def pickLatest : List Row → Option Row
  | [] => none
  | x :: xs => some (pick1 x xs)

/-- The selected row of the partition `PARTITION BY symbol` for `s`. -/
def latestForSymbol (s : String) (rows : List Row) : Option Row :=
  pickLatest (rows.filter (fun r => r.symbol == s))

/-- Comparison relation modelling `ORDER BY timestamp DESC`: `a` may
precede `b` exactly when `b`'s timestamp is at most `a`'s. -/
def tsGe (a b : Row) : Prop :=
  b.timestamp ≤ a.timestamp

instance : DecidableRel tsGe := fun a b => Nat.decLe b.timestamp a.timestamp

instance : IsTotal Row tsGe :=
  ⟨fun a b => (Nat.le_total b.timestamp a.timestamp).elim Or.inl Or.inr⟩

instance : IsTrans Row tsGe :=
  ⟨fun _ _ _ h1 h2 => Nat.le_trans h2 h1⟩

/-- Sorting modelling `ORDER BY timestamp DESC` over a result set
(stable, as SQLite delivers rows of equal key in scan order). -/
def sortTsDesc (l : List Row) : List Row :=
  List.insertionSort tsGe l

/-- The rows selected by the `WHERE rn = 1` filter: one row per
distinct symbol of the table, namely that symbol's partition winner. -/
def selectedRows (rows : List Row) : List Row :=
  ((rows.map (fun r => r.symbol)).dedup).filterMap
    (fun s => latestForSymbol s rows)

/-- Embedding of `DatabaseManager.get_latest_data_per_symbol`, the pure
query on the table contents: one selected row per distinct symbol (the
`rn = 1` row of each partition), ordered by timestamp descending. -/
def get_latest_data_per_symbol (rows : List Row) : List Row :=
  sortTsDesc (selectedRows rows)

/-- Embedding of `get_latest_data_per_symbol` including its
`try/except` wrapper: on any storage exception the code prints the
error and returns the empty list instead of propagating a storage
error. -/
def get_latest_data_per_symbol_guarded (medium : Except String (List Row)) :
    List Row :=
  match medium with
  | Except.ok rows => get_latest_data_per_symbol rows
  | Except.error _ => []

/-- SQLite `LIMIT k`: a negative `k` means no limit. -/
def applyLimit (k : Int) (l : List Row) : List Row :=
  if k < 0 then l else l.take k.toNat

/-- Embedding of `DatabaseManager.get_all_data(limit)`: it orders by
timestamp descending, with the `LIMIT` clause appended only when the
Python truthiness test `if limit:` passes (i.e. `limit` is present and
nonzero). -/
def get_all_data (limit : Option Int) (rows : List Row) : List Row :=
  match limit with
  | none => sortTsDesc rows
  | some k => if k = 0 then sortTsDesc rows else applyLimit k (sortTsDesc rows)

/-- The AUTOINCREMENT id for the next insert: strictly greater than
every id already in the table. -/
def nextId (st : List Row) : Nat :=
  (st.map (fun r => r.id)).foldr max 0 + 1

/-- The effect of the committed `INSERT INTO investment_data`: the new
row is appended with a fresh id and the clock timestamp `ts`. -/
def insertRow (st : List Row) (s : String) (p a : ℚ) (ts : Nat) : List Row :=
  st ++ [⟨nextId st, s, p, a, ts⟩]

/-- Embedding of `DatabaseManager.insert_data`: on success commits the row and
returns `true`; on any exception the connection is rolled back, the
error is printed, and it returns `false` with the table unchanged. -/
def insert_data (dbOk : Bool) (st : List Row) (s : String) (p a : ℚ)
    (ts : Nat) : Bool × List Row :=
  if dbOk then (true, insertRow st s p a ts) else (false, st)

/-- The parsed webhook payload (`WebhookData` pydantic model). -/
structure WebhookData where
  symbol : String
  price : ℚ
  atr : ℚ
  deriving Repr, DecidableEq

/-- The HTTP outcome of the ingestion endpoint: a 200 success payload,
a 400 `HTTPException`, or a 500 `HTTPException`. -/
inductive Response where
  | success (symbol : String) (price atr exit_price : ℚ) (message : String)
  | clientError (detail : String)
  | serverError (detail : String)
  deriving Repr, DecidableEq

/-- Embedding of `receive_webhook` of `webhook_receiver.py`: validates `price` then
`atr` (there is no check on `symbol`), stores via `insert_data`, and on
success answers with the submitted fields plus `exit_price =
price - atr` computed on the response only. -/
def receive_webhook (dbOk : Bool) (st : List Row) (d : WebhookData)
    (ts : Nat) : Response × List Row :=
  if d.price ≤ 0 then (Response.clientError "Price must be positive", st)
  else if d.atr < 0 then (Response.clientError "ATR cannot be negative", st)
  else
    let res := insert_data dbOk st d.symbol d.price d.atr ts
    if res.1 then
      (Response.success d.symbol d.price d.atr (d.price - d.atr)
        ("Data for " ++ d.symbol ++ " received and stored"), res.2)
    else
      (Response.serverError "Failed to store data", res.2)

theorem step_eq_or (b x : Row) : step b x = x ∨ step b x = b := by
  unfold step
  split <;> simp

theorem ts_le_step_left (b x : Row) : b.timestamp ≤ (step b x).timestamp := by
  unfold step
  split
  · omega
  · exact le_refl _

theorem ts_le_step_right (b x : Row) : x.timestamp ≤ (step b x).timestamp := by
  unfold step
  split
  · exact le_refl _
  · omega

theorem pick1_cons (b x : Row) (l : List Row) :
    pick1 b (x :: l) = pick1 (step b x) l := rfl

theorem pick1_snoc (b : Row) (l : List Row) (y : Row) :
    pick1 b (l ++ [y]) = step (pick1 b l) y := by
  simp [pick1, List.foldl_append]

theorem pick1_mem (b : Row) (l : List Row) : pick1 b l ∈ b :: l := by
  induction l generalizing b with
  | nil => simp [pick1]
  | cons x xs ih =>
    rw [pick1_cons]
    rcases step_eq_or b x with hs | hs <;> rw [hs]
    · exact List.mem_cons_of_mem b (ih x)
    · rcases List.mem_cons.mp (ih b) with h1 | h1
      · rw [h1]
        exact List.mem_cons_self _ _
      · exact List.mem_cons_of_mem _ (List.mem_cons_of_mem _ h1)

theorem pick1_ts_max (b : Row) (l : List Row) :
    ∀ x ∈ b :: l, x.timestamp ≤ (pick1 b l).timestamp := by
  induction l generalizing b with
  | nil =>
    intro x hx
    simp only [List.mem_singleton] at hx
    subst hx
    exact le_refl _
  | cons x xs ih =>
    intro y hy
    rw [pick1_cons]
    have hstep : ∀ z ∈ step b x :: xs, z.timestamp ≤ (pick1 (step b x) xs).timestamp :=
      ih (step b x)
    have hhead := hstep (step b x) (List.mem_cons_self _ _)
    rcases List.mem_cons.mp hy with hyb | hy'
    · rw [hyb]
      exact le_trans (ts_le_step_left b x) hhead
    rcases List.mem_cons.mp hy' with hyx | hy''
    · rw [hyx]
      exact le_trans (ts_le_step_right b x) hhead
    · exact hstep y (List.mem_cons_of_mem _ hy'')

theorem pick1_tie (b : Row) (l : List Row)
    (h : (b :: l).Pairwise (fun u v => u.id < v.id)) :
    ∀ x ∈ b :: l, x.timestamp < (pick1 b l).timestamp ∨
      (x.timestamp = (pick1 b l).timestamp ∧ (pick1 b l).id ≤ x.id) := by
  induction l generalizing b with
  | nil =>
    intro x hx
    simp only [List.mem_singleton] at hx
    subst hx
    exact Or.inr ⟨rfl, le_refl _⟩
  | cons x xs ih =>
    rw [pick1_cons]
    by_cases hbx : b.timestamp < x.timestamp
    · have hstep : step b x = x := if_pos hbx
      rw [hstep]
      have hpw : (x :: xs).Pairwise (fun u v => u.id < v.id) := h.of_cons
      have IH := ih x hpw
      intro y hy
      rcases List.mem_cons.mp hy with hyb | hy'
      · rw [hyb]
        have hx1 := IH x (List.mem_cons_self x xs)
        have hxle : x.timestamp ≤ (pick1 x xs).timestamp := by
          rcases hx1 with h1 | h1
          · exact le_of_lt h1
          · exact le_of_eq h1.1
        exact Or.inl (lt_of_lt_of_le hbx hxle)
      · exact IH y hy'
    · have hstep : step b x = b := if_neg hbx
      rw [hstep]
      have hxb : x.timestamp ≤ b.timestamp := Nat.le_of_not_lt hbx
      rw [List.pairwise_cons] at h
      obtain ⟨hb, hxxs⟩ := h
      rw [List.pairwise_cons] at hxxs
      obtain ⟨hx2, hxs⟩ := hxxs
      have hpw : (b :: xs).Pairwise (fun u v => u.id < v.id) :=
        List.pairwise_cons.mpr
          ⟨fun y hy => hb y (List.mem_cons_of_mem x hy), hxs⟩
      have IH := ih b hpw
      intro y hy
      rcases List.mem_cons.mp hy with hyb | hy'
      · rw [hyb]
        exact IH b (List.mem_cons_self b xs)
      rcases List.mem_cons.mp hy' with hyx | hy''
      · rw [hyx]
        have hbpick := IH b (List.mem_cons_self b xs)
        rcases hbpick with h1 | h1
        · exact Or.inl (lt_of_le_of_lt hxb h1)
        · rcases lt_or_eq_of_le (le_trans hxb (le_of_eq h1.1)) with h2 | h2
          · exact Or.inl h2
          · refine Or.inr ⟨h2, ?_⟩
            have hbidx : b.id < x.id := hb x (List.mem_cons_self x xs)
            exact le_of_lt (lt_of_le_of_lt h1.2 hbidx)
      · exact IH y (List.mem_cons_of_mem b hy'')

theorem latestForSymbol_some_mem {s : String} {rows : List Row} {r : Row}
    (h : latestForSymbol s rows = some r) : r ∈ rows ∧ r.symbol = s := by
  unfold latestForSymbol pickLatest at h
  cases hf : rows.filter (fun r => r.symbol == s) with
  | nil =>
    rw [hf] at h
    exact absurd h (by simp)
  | cons x xs =>
    rw [hf] at h
    have hr : pick1 x xs = r := by
      simpa using h
    have hmem : r ∈ rows.filter (fun r => r.symbol == s) := by
      rw [hf, ← hr]
      exact pick1_mem x xs
    simp only [List.mem_filter, beq_iff_eq] at hmem
    exact hmem

theorem latestForSymbol_isSome {s : String} {rows : List Row} {x : Row}
    (hx : x ∈ rows) (hs : x.symbol = s) :
    ∃ r, latestForSymbol s rows = some r := by
  unfold latestForSymbol pickLatest
  cases hf : rows.filter (fun r => r.symbol == s) with
  | nil =>
    exfalso
    have hmem : x ∈ rows.filter (fun r => r.symbol == s) := by
      simp [List.mem_filter, hx, hs]
    rw [hf] at hmem
    simp at hmem
  | cons y ys =>
    exact ⟨pick1 y ys, rfl⟩

theorem latestForSymbol_ts_max {s : String} {rows : List Row} {r : Row}
    (h : latestForSymbol s rows = some r) :
    ∀ x ∈ rows, x.symbol = s → x.timestamp ≤ r.timestamp := by
  intro x hx hs
  unfold latestForSymbol pickLatest at h
  cases hf : rows.filter (fun r => r.symbol == s) with
  | nil =>
    rw [hf] at h
    exact absurd h (by simp)
  | cons y ys =>
    rw [hf] at h
    have hr : pick1 y ys = r := by
      simpa using h
    have hxf : x ∈ y :: ys := by
      rw [← hf]
      simp [List.mem_filter, hx, hs]
    rw [← hr]
    exact pick1_ts_max y ys x hxf

theorem latestForSymbol_tie {s : String} {rows : List Row} {r : Row}
    (hids : rows.Pairwise (fun u v => u.id < v.id))
    (h : latestForSymbol s rows = some r) :
    ∀ x ∈ rows, x.symbol = s → x.timestamp = r.timestamp → r.id ≤ x.id := by
  intro x hx hs hts
  unfold latestForSymbol pickLatest at h
  cases hf : rows.filter (fun r => r.symbol == s) with
  | nil =>
    rw [hf] at h
    exact absurd h (by simp)
  | cons y ys =>
    rw [hf] at h
    have hr : pick1 y ys = r := by
      simpa using h
    have hpw : (y :: ys).Pairwise (fun u v => u.id < v.id) := by
      rw [← hf]
      exact hids.sublist (List.filter_sublist _)
    have hxf : x ∈ y :: ys := by
      rw [← hf]
      simp [List.mem_filter, hx, hs]
    have htie := pick1_tie y ys hpw x hxf
    rw [hr] at htie
    rcases htie with h1 | h1
    · omega
    · exact h1.2

theorem latestForSymbol_insert {st : List Row} {s : String} {p a : ℚ} {ts : Nat}
    (h : ∀ x ∈ st, x.symbol = s → x.timestamp < ts) :
    latestForSymbol s (insertRow st s p a ts) = some ⟨nextId st, s, p, a, ts⟩ := by
  unfold latestForSymbol insertRow
  rw [List.filter_append]
  have hnew : List.filter (fun r => r.symbol == s)
      [(⟨nextId st, s, p, a, ts⟩ : Row)] = [⟨nextId st, s, p, a, ts⟩] := by
    simp
  rw [hnew]
  cases hf : st.filter (fun r => r.symbol == s) with
  | nil =>
    simp [pickLatest, pick1]
  | cons y ys =>
    simp only [List.cons_append, pickLatest, Option.some.injEq]
    rw [pick1_snoc]
    have hmem : pick1 y ys ∈ st.filter (fun r => r.symbol == s) := by
      rw [hf]
      exact pick1_mem y ys
    simp only [List.mem_filter, beq_iff_eq] at hmem
    have hlt : (pick1 y ys).timestamp < ts := h _ hmem.1 hmem.2
    simp [step, hlt]

theorem filterMap_latest_map_symbol (rows : List Row) :
    ∀ (d : List String), (∀ s ∈ d, s ∈ rows.map (fun r => r.symbol)) →
      ((d.filterMap (fun s => latestForSymbol s rows)).map
        (fun r => r.symbol)) = d := by
  intro d
  induction d with
  | nil => simp
  | cons s t ih =>
    intro hmem
    have hs := hmem s (List.mem_cons_self s t)
    obtain ⟨x, hx, hxs⟩ := List.mem_map.mp hs
    obtain ⟨r, hr⟩ := latestForSymbol_isSome hx hxs
    have hrs : r.symbol = s := (latestForSymbol_some_mem hr).2
    simp only [List.filterMap_cons, hr, List.map_cons, hrs]
    rw [ih (fun y hy => hmem y (List.mem_cons_of_mem s hy))]

theorem selectedRows_map_symbol (rows : List Row) :
    (selectedRows rows).map (fun r => r.symbol) =
      (rows.map (fun r => r.symbol)).dedup := by
  unfold selectedRows
  exact filterMap_latest_map_symbol rows _
    (fun s hs => List.mem_dedup.mp hs)

theorem get_latest_symbols_perm (rows : List Row) :
    ((get_latest_data_per_symbol rows).map (fun r => r.symbol)).Perm
      ((rows.map (fun r => r.symbol)).dedup) := by
  unfold get_latest_data_per_symbol sortTsDesc
  have hp : (List.insertionSort tsGe (selectedRows rows)).Perm (selectedRows rows) :=
    List.perm_insertionSort tsGe (selectedRows rows)
  have hm := hp.map (fun r => r.symbol)
  rwa [selectedRows_map_symbol] at hm

theorem get_latest_symbols_nodup (rows : List Row) :
    ((get_latest_data_per_symbol rows).map (fun r => r.symbol)).Nodup :=
  (get_latest_symbols_perm rows).nodup_iff.mpr (List.nodup_dedup _)

theorem get_latest_sorted_ts (rows : List Row) :
    List.Sorted tsGe (get_latest_data_per_symbol rows) :=
  List.sorted_insertionSort tsGe (selectedRows rows)

theorem mem_get_latest {rows : List Row} {r : Row}
    (h : r ∈ get_latest_data_per_symbol rows) :
    latestForSymbol r.symbol rows = some r := by
  unfold get_latest_data_per_symbol sortTsDesc at h
  rw [List.mem_insertionSort] at h
  obtain ⟨s, _, hsome⟩ := List.mem_filterMap.mp h
  have hrs : r.symbol = s := (latestForSymbol_some_mem hsome).2
  rw [hrs]
  exact hsome

theorem insert_mem_get_latest {st : List Row} {s : String} {p a : ℚ} {ts : Nat}
    (h : ∀ x ∈ st, x.symbol = s → x.timestamp < ts) :
    (⟨nextId st, s, p, a, ts⟩ : Row) ∈
      get_latest_data_per_symbol (insertRow st s p a ts) := by
  unfold get_latest_data_per_symbol sortTsDesc
  rw [List.mem_insertionSort]
  unfold selectedRows
  rw [List.mem_filterMap]
  refine ⟨s, ?_, latestForSymbol_insert h⟩
  rw [List.mem_dedup, List.mem_map]
  exact ⟨⟨nextId st, s, p, a, ts⟩, by simp [insertRow], rfl⟩

/-- C1: `get_latest_data_per_symbol` returns exactly one record per
distinct symbol of the table (its symbol column is duplicate-free and
covers exactly the symbols ever inserted), the result is ordered by
timestamp descending, and on an empty table — also behind the
`try/except` wrapper — it returns the empty list rather than an
error. -/
theorem latest_per_symbol_one_each_sorted (rows : List Row) :
    ((get_latest_data_per_symbol rows).map (fun r => r.symbol)).Nodup ∧
    (∀ s, s ∈ (get_latest_data_per_symbol rows).map (fun r => r.symbol) ↔
      s ∈ rows.map (fun r => r.symbol)) ∧
    List.Sorted tsGe (get_latest_data_per_symbol rows) ∧
    get_latest_data_per_symbol [] = [] ∧
    get_latest_data_per_symbol_guarded (Except.ok []) = [] := by
  refine ⟨get_latest_symbols_nodup rows, ?_, get_latest_sorted_ts rows, rfl, rfl⟩
  intro s
  rw [(get_latest_symbols_perm rows).mem_iff, List.mem_dedup]

/-- C2 (corrected): per symbol the query selects a row with the maximum
timestamp, but among rows tied at that maximum it selects the earliest
stored one — the LOWEST id — because the SQL window orders only by
`timestamp DESC` with no id tie-break.  Stated for tables whose ids
increase in storage order, as AUTOINCREMENT guarantees. -/
theorem latest_tie_breaks_to_lowest_id (rows : List Row)
    (hids : rows.Pairwise (fun u v => u.id < v.id)) :
    ∀ r ∈ get_latest_data_per_symbol rows, r ∈ rows ∧
      ∀ x ∈ rows, x.symbol = r.symbol →
        x.timestamp ≤ r.timestamp ∧
        (x.timestamp = r.timestamp → r.id ≤ x.id) := by
  intro r hr
  have hsome := mem_get_latest hr
  refine ⟨(latestForSymbol_some_mem hsome).1, fun x hx hs => ⟨?_, ?_⟩⟩
  · exact latestForSymbol_ts_max hsome x hx hs
  · exact fun hts => latestForSymbol_tie hids hsome x hx hs hts

/-- Witness for C2's amended statement at a concrete tied table: of the
two "A" rows with equal timestamp 5 the query keeps id 1, the lowest. -/
theorem latest_tie_breaks_to_lowest_id_witness :
    (⟨1, "A", (1 : ℚ), 0, 5⟩ : Row) ∈
      ([⟨1, "A", 1, 0, 5⟩, ⟨2, "A", 2, 0, 5⟩] : List Row) ∧
    ∀ x ∈ ([⟨1, "A", (1 : ℚ), 0, 5⟩, ⟨2, "A", 2, 0, 5⟩] : List Row),
      x.symbol = "A" → x.timestamp ≤ 5 ∧ (x.timestamp = 5 → 1 ≤ x.id) := by
  have h := latest_tie_breaks_to_lowest_id
    [⟨1, "A", 1, 0, 5⟩, ⟨2, "A", 2, 0, 5⟩] (by decide)
    ⟨1, "A", 1, 0, 5⟩ (by decide)
  exact h

/-- Counterexample to C2 as stated: two rows for symbol "A" share the
maximum timestamp 5; the claim says the row with the highest id (id 2)
is selected, but the query selects the id 1 row. -/
theorem latest_tie_highest_id_cex :
    get_latest_data_per_symbol
        [⟨1, "A", (1 : ℚ), 0, 5⟩, ⟨2, "A", 2, 0, 5⟩] =
      [⟨1, "A", 1, 0, 5⟩] ∧
    ∀ r ∈ get_latest_data_per_symbol
        [⟨1, "A", (1 : ℚ), 0, 5⟩, ⟨2, "A", 2, 0, 5⟩], r.id ≠ 2 := by
  decide

/-- C4: on a storage failure during the latest-per-symbol read the code
returns the empty list — exactly what it returns for an empty table —
instead of surfacing a storage error, so callers cannot distinguish
"no data" from "storage failure". -/
theorem query_failure_swallowed_to_empty :
    get_latest_data_per_symbol_guarded (Except.error "database is locked") = [] ∧
    get_latest_data_per_symbol_guarded (Except.ok []) = [] :=
  ⟨rfl, rfl⟩

/-- C10: `insert_data` is total at its interface: for every input it
either returns `true` with the row committed, or returns `false` with
the table rolled back unchanged; no other outcome exists. -/
theorem insert_data_total_outcome (dbOk : Bool) (st : List Row) (s : String)
    (p a : ℚ) (ts : Nat) :
    insert_data dbOk st s p a ts = (true, insertRow st s p a ts) ∨
    insert_data dbOk st s p a ts = (false, st) := by
  cases dbOk <;> simp [insert_data]

/-- C5 (corrected): provided the new record's timestamp strictly
exceeds that of every earlier row of the same symbol (appends on
distinct clock ticks — `CURRENT_TIMESTAMP` has one-second resolution),
an append followed by the latest-per-symbol query yields exactly one
record for that symbol, and it carries the appended price, atr and
timestamp. -/
theorem append_then_latest (st : List Row) (s : String) (p a : ℚ) (ts : Nat)
    (h : ∀ x ∈ st, x.symbol = s → x.timestamp < ts) :
    ∃ r ∈ get_latest_data_per_symbol (insertRow st s p a ts),
      r.symbol = s ∧ r.price = p ∧ r.atr = a ∧ r.timestamp = ts ∧
      ∀ r' ∈ get_latest_data_per_symbol (insertRow st s p a ts),
        r'.symbol = s → r' = r := by
  refine ⟨⟨nextId st, s, p, a, ts⟩, insert_mem_get_latest h,
    rfl, rfl, rfl, rfl, ?_⟩
  intro r' hr' hs'
  have hnd := get_latest_symbols_nodup (insertRow st s p a ts)
  exact List.inj_on_of_nodup_map hnd hr' (insert_mem_get_latest h)
    (by rw [hs'])

/-- Witness for C5's amended statement: a single append into the empty
store is returned by the query with its price and atr. -/
theorem append_then_latest_witness :
    ∃ r ∈ get_latest_data_per_symbol (insertRow [] "AAPL" 150 2 7),
      r.symbol = "AAPL" ∧ r.price = 150 ∧ r.atr = 2 ∧ r.timestamp = 7 ∧
      ∀ r' ∈ get_latest_data_per_symbol (insertRow [] "AAPL" 150 2 7),
        r'.symbol = "AAPL" → r' = r :=
  append_then_latest [] "AAPL" 150 2 7 (by simp)

/-- Counterexample to C5 as stated: two appends for "AAPL" in the same
clock second (equal timestamp 7); the query then returns the FIRST
appended row (price 150), not the most recently appended one
(price 151). -/
theorem append_same_tick_cex :
    get_latest_data_per_symbol
        (insertRow (insertRow [] "AAPL" 150 2 7) "AAPL" 151 2 7) =
      [⟨1, "AAPL", 150, 2, 7⟩] ∧ (150 : ℚ) ≠ 151 := by
  decide

/-- C3 (corrected): the endpoint performs no validation of `symbol` at
all — a payload whose symbol is empty but whose price and atr are valid
is accepted: the response is a success and the row is stored. -/
theorem empty_symbol_not_validated (st : List Row) (p a : ℚ) (ts : Nat)
    (hp : 0 < p) (ha : 0 ≤ a) :
    receive_webhook true st ⟨"", p, a⟩ ts =
      (Response.success "" p a (p - a) "Data for  received and stored",
        insertRow st "" p a ts) := by
  unfold receive_webhook
  rw [if_neg (not_le.mpr hp), if_neg (not_lt.mpr ha)]
  simp [insert_data]
  try rfl

/-- Witness for C3's amended statement at a concrete payload. -/
theorem empty_symbol_not_validated_witness :
    receive_webhook true [] ⟨"", 2, 1⟩ 0 =
      (Response.success "" 2 1 1 "Data for  received and stored",
        insertRow [] "" 2 1 0) := by
  have h := empty_symbol_not_validated [] 2 1 0 (by norm_num) (by norm_num)
  rw [h]
  norm_num

/-- Counterexample to C3 as stated: the empty-symbol payload with
price 1 and atr 0 is NOT rejected — the endpoint answers success and
the store grows from zero rows to one. -/
theorem empty_symbol_accepted_cex :
    receive_webhook true [] ⟨"", 1, 0⟩ 0 =
      (Response.success "" 1 0 1 "Data for  received and stored",
        [⟨1, "", 1, 0, 0⟩]) ∧
    (receive_webhook true [] (⟨"", 1, 0⟩ : WebhookData) 0).2.length = 1 := by
  constructor
  · norm_num [receive_webhook, insert_data, insertRow, nextId]
    rfl
  · norm_num [receive_webhook, insert_data, insertRow, nextId]

/-- C6: whenever validation passes and the store confirms the write,
the endpoint answers success with exactly the submitted symbol, price
and atr unchanged plus `exit_price = price - atr`, and the stored row
carries only symbol, price, atr, id and timestamp — `exit_price` is
computed on the response and never persisted (the `Row` type has no
such column). -/
theorem webhook_success_payload (st : List Row) (d : WebhookData) (ts : Nat)
    (hp : 0 < d.price) (ha : 0 ≤ d.atr) :
    receive_webhook true st d ts =
      (Response.success d.symbol d.price d.atr (d.price - d.atr)
        ("Data for " ++ d.symbol ++ " received and stored"),
        insertRow st d.symbol d.price d.atr ts) := by
  unfold receive_webhook
  rw [if_neg (not_le.mpr hp), if_neg (not_lt.mpr ha)]
  simp [insert_data]

/-- Witness for C6 at the spec's example: price 150.25 with atr 2.35
yields exit_price 147.90 on the response. -/
theorem webhook_success_payload_witness :
    receive_webhook true [] ⟨"AAPL", 150.25, 2.35⟩ 0 =
      (Response.success "AAPL" 150.25 2.35 147.90
        "Data for AAPL received and stored",
        [⟨1, "AAPL", 150.25, 2.35, 0⟩]) := by
  have h := webhook_success_payload [] ⟨"AAPL", 150.25, 2.35⟩ 0
    (by norm_num) (by norm_num)
  rw [h]
  norm_num [insertRow, nextId]
  try rfl

/-- C7: a payload with nonpositive price or negative atr is rejected
with a 400 client error carrying the failing rule's message, the store
is left untouched, and the rules are checked in order — when both fail
the price message wins. -/
theorem invalid_payload_rejected (dbOk : Bool) (st : List Row)
    (d : WebhookData) (ts : Nat) (h : d.price ≤ 0 ∨ d.atr < 0) :
    receive_webhook dbOk st d ts =
      (Response.clientError
        (if d.price ≤ 0 then "Price must be positive"
         else "ATR cannot be negative"), st) := by
  unfold receive_webhook
  by_cases hp : d.price ≤ 0
  · rw [if_pos hp, if_pos hp]
  · rw [if_neg hp, if_neg hp]
    have ha : d.atr < 0 := h.resolve_left hp
    rw [if_pos ha]

/-- Witness for C7: with BOTH price and atr invalid the endpoint
answers the price message, showing price is checked before atr, and the
store is unchanged. -/
theorem invalid_payload_rejected_witness :
    receive_webhook true [] ⟨"A", -1, -1⟩ 0 =
      (Response.clientError "Price must be positive", []) := by
  have h := invalid_payload_rejected true [] ⟨"A", -1, -1⟩ 0
    (Or.inl (by norm_num))
  rw [h]
  norm_num

/-- C8: when the store does not confirm the append the endpoint answers
a 500 server error with the table unchanged, and a success response is
possible only when the store confirmed the write. -/
theorem no_success_without_commit (dbOk : Bool) (st : List Row)
    (d : WebhookData) (ts : Nat) :
    (0 < d.price → 0 ≤ d.atr → dbOk = false →
      receive_webhook dbOk st d ts =
        (Response.serverError "Failed to store data", st)) ∧
    (∀ s p a e m, (receive_webhook dbOk st d ts).1 =
      Response.success s p a e m → dbOk = true) := by
  constructor
  · intro hp ha hdb
    subst hdb
    unfold receive_webhook
    rw [if_neg (not_le.mpr hp), if_neg (not_lt.mpr ha)]
    simp [insert_data]
  · intro s p a e m hsucc
    by_cases hdb : dbOk = true
    · exact hdb
    · exfalso
      have hdb' : dbOk = false := by
        simpa using hdb
      subst hdb'
      unfold receive_webhook at hsucc
      by_cases hp : d.price ≤ 0
      · rw [if_pos hp] at hsucc
        simp at hsucc
      · rw [if_neg hp] at hsucc
        by_cases ha : d.atr < 0
        · rw [if_pos ha] at hsucc
          simp at hsucc
        · rw [if_neg ha] at hsucc
          simp [insert_data] at hsucc

/-- Witness for C8: with the medium failing, a valid payload gets the
500 response and the store stays empty. -/
theorem no_success_without_commit_witness :
    receive_webhook false [] ⟨"A", 1, 0⟩ 0 =
      (Response.serverError "Failed to store data", []) :=
  (no_success_without_commit false [] ⟨"A", 1, 0⟩ 0).1
    (by norm_num) (by norm_num) rfl

/-- C9: `get_all_data` returns rows ordered by timestamp descending;
with no limit, a zero limit or a negative limit it returns every row,
and with a positive limit `k` it returns the first `k` rows of the
descending order — `min k n` rows when the table has `n`, so all rows
when fewer than `k` exist. -/
theorem get_all_data_ordered_limited (limit : Option Int) (rows : List Row) :
    List.Sorted tsGe (get_all_data limit rows) ∧
    (limit = none → (get_all_data limit rows).Perm rows) ∧
    (∀ k, limit = some k → k ≤ 0 → (get_all_data limit rows).Perm rows) ∧
    (∀ k, limit = some k → 0 < k →
      get_all_data limit rows = (sortTsDesc rows).take k.toNat ∧
      (get_all_data limit rows).length = min k.toNat rows.length ∧
      (rows.length ≤ k.toNat → (get_all_data limit rows).Perm rows)) := by
  have hsort : List.Sorted tsGe (sortTsDesc rows) :=
    List.sorted_insertionSort tsGe rows
  have hperm : (sortTsDesc rows).Perm rows :=
    List.perm_insertionSort tsGe rows
  have hsome : ∀ k : Int, get_all_data (some k) rows =
      if k = 0 then sortTsDesc rows else applyLimit k (sortTsDesc rows) :=
    fun _ => rfl
  refine ⟨?_, ?_, ?_, ?_⟩
  · cases limit with
    | none => exact hsort
    | some k =>
      rw [hsome k]
      unfold applyLimit
      by_cases hk : k = 0
      · rw [if_pos hk]
        exact hsort
      · rw [if_neg hk]
        by_cases hneg : k < 0
        · rw [if_pos hneg]
          exact hsort
        · rw [if_neg hneg]
          exact List.Pairwise.sublist (List.take_sublist _ _) hsort
  · intro hl
    subst hl
    exact hperm
  · intro k hl hk
    subst hl
    rw [hsome k]
    unfold applyLimit
    by_cases hk0 : k = 0
    · rw [if_pos hk0]
      exact hperm
    · rw [if_neg hk0]
      have hneg : k < 0 := lt_of_le_of_ne hk hk0
      rw [if_pos hneg]
      exact hperm
  · intro k hl hk
    subst hl
    have hne : k ≠ 0 := ne_of_gt hk
    have hnneg : ¬ k < 0 := not_lt.mpr (le_of_lt hk)
    have heq : get_all_data (some k) rows = (sortTsDesc rows).take k.toNat := by
      rw [hsome k]
      unfold applyLimit
      rw [if_neg hne, if_neg hnneg]
    refine ⟨heq, ?_, ?_⟩
    · rw [heq, List.length_take, hperm.length_eq]
    · intro hle
      rw [heq, List.take_of_length_le (by rw [hperm.length_eq]; exact hle)]
      exact hperm

/-- Witness for C9 at limit 2 over a one-row table: fewer rows than the
limit, so all (one) rows come back. -/
theorem get_all_data_ordered_limited_witness :
    (get_all_data (some 2) [⟨1, "A", (1 : ℚ), 0, 1⟩]).length = 1 := by
  have h := ((get_all_data_ordered_limited (some 2)
    [⟨1, "A", (1 : ℚ), 0, 1⟩]).2.2.2 2 rfl (by norm_num)).2.1
  simpa using h

end RiskDashboard
